import Mathlib

/-
Verification of the GenstageImporter data-import pipeline described in
src/content/posts/data-import-pipeline-genstage-flow/index.mdx.

The pipeline has two halves:
  1. GenstageImporter.Pipeline.Order: stream orders.csv, filter ignored
     rows, project each row to a small map, partition by order number and
     reduce each partition into an ETS table of per-order aggregates.
  2. GenstageImporter.EctoImporter: batch the merged product records,
     upsert each batch into the store keyed by external_id (replacing all
     fields on conflict, with fresh timestamps), then delete every
     persisted id that was not written during the run, in chunks of 1000.

Rows are modelled after parsing: the integer columns carry the value that
GenstageImporter.Parser.parse_integer produced, wall-clock time is an
explicit Nat parameter, the persistent store is a list of rows, and the
MapSet of ids is a Finset of strings.
-/

namespace GenstageImporter

/-- Raw row of orders.csv, with the numeric columns already parsed. -/
structure OrderRow where
  order_number : String
  line_status : String
  product_number : String
  ordered_pieces : Int
  shipped_pieces : Int
  bill_of_lading : String
deriving DecidableEq

/-- Modelled from the spec: the valid/1 predicate used by Flow.filter is not
shown in the article; the stated business rule is that a row whose line
status is Closed and which has no bill of lading represents an aborted
shipment and is ignored entirely. -/
def valid (row : OrderRow) : Bool :=
  !(row.line_status == "Closed" && row.bill_of_lading == "")

/-- Modelled from the spec: the pending/1 predicate used by Flow.map is not
shown in the article; the stated business rule, disambiguated by the
order-2 example of the article, is that a row is pending when its line
status is Open and that row has no bill of lading. -/
def pending (row : OrderRow) : Bool :=
  row.line_status == "Open" && row.bill_of_lading == ""

/-- Projected record produced by the Flow.map stage of Order.import. -/
structure POrder where
  order_number : String
  product_number : String
  ordered_pieces : Int
  shipped_pieces : Int
  pending : Bool
deriving DecidableEq

/-- Flow.map stage of Order.import: keep only the fields needed downstream. -/
def project (row : OrderRow) : POrder :=
  { order_number := row.order_number
    product_number := row.product_number
    ordered_pieces := row.ordered_pieces
    shipped_pieces := row.shipped_pieces
    pending := pending row }

/-- Per-order aggregate stored in the orders ETS table by Flow.reduce. -/
structure OrderAgg where
  product_number : String
  ordered_pieces : Int
  shipped_pieces : Int
  pending : Bool
deriving DecidableEq

/-- Modelled from the spec: ETS.fetch_order is not shown in the article; the
reduce step destructures its result as a tuple whose shipped total and
pending flag must default to zero and false for an absent key (the spec
says an aggregate entry is initialized with zero totals). Only the two
fields the reduce step reads are returned. -/
def fetch_order (table : String → Option OrderAgg) (k : String) : Int × Bool :=
  match table k with
  | some agg => (agg.shipped_pieces, agg.pending)
  | none => (0, false)

/-- ETS.insert_order: store the aggregate tuple under the order number. -/
def insert_order (table : String → Option OrderAgg) (k : String)
    (product_number : String) (ordered_pieces shipped_pieces : Int)
    (pend : Bool) : String → Option OrderAgg :=
  fun x =>
    if x = k then
      some { product_number := product_number
             ordered_pieces := ordered_pieces
             shipped_pieces := shipped_pieces
             pending := pend }
    else table x

/-- Body of the Flow.reduce step of Order.import: fetch the running totals
for the row under its order number, add the shipped pieces and or the
pending flags, and write the tuple back. -/
def orderStep (table : String → Option OrderAgg) (row : POrder) :
    String → Option OrderAgg :=
  let f := fetch_order table row.order_number
  insert_order table row.order_number row.product_number row.ordered_pieces
    (f.1 + row.shipped_pieces) (f.2 || row.pending)

/-- Flow.reduce of Order.import, starting from an empty ETS table. -/
def reduceFlow (l : List POrder) : String → Option OrderAgg :=
  l.foldl orderStep (fun _ => none)

/-- Order.import applied to a list of parsed rows: filter out ignored rows,
project, and reduce into the per-order aggregate table. -/
def importOrders (rows : List OrderRow) : String → Option OrderAgg :=
  reduceFlow ((rows.filter valid).map project)

/-- Rows of the reduced input that carry a given order number, in order. -/
def keyRows (rows : List OrderRow) (k : String) : List POrder :=
  ((rows.filter valid).map project).filter (fun p => p.order_number == k)

/-- Sum of the shipped pieces over the non-ignored rows of one order. -/
def shippedSum (rows : List OrderRow) (k : String) : Int :=
  ((keyRows rows k).map (fun p => p.shipped_pieces)).sum

/-- Modelled from the spec: process_order is not shown in the article; the
spec states that the pending quantity of an order is its ordered quantity
minus the shipped total, computed once during finalization, and that a
pending quantity is clamped at zero rather than emitted negative. -/
def pending_quantity (agg : OrderAgg) : Int :=
  max (agg.ordered_pieces - agg.shipped_pieces) 0

/-- Flow.partition routing: worker index of a grouping key given a hash
function and a worker count. -/
def route (hash : String → Nat) (w : Nat) (k : String) : Nat :=
  hash k % w

/-- Projected rows routed to one worker by Flow.partition. -/
def worker_rows (hash : String → Nat) (w : Nat) (rows : List OrderRow)
    (i : Nat) : List POrder :=
  ((rows.filter valid).map project).filter
    (fun p => route hash w p.order_number == i)

/-- Aggregate table built by the reduce stage of one worker. -/
def worker_table (hash : String → Nat) (w : Nat) (rows : List OrderRow)
    (i : Nat) : String → Option OrderAgg :=
  reduceFlow (worker_rows hash w rows i)

/-- Raw row of products.csv. -/
structure ProductCsvRow where
  product_number : String
  price : String
  commodity : String
  short_desc : String
deriving DecidableEq

/-- Per-product aggregate held in the products ETS table. -/
structure ProductAgg where
  pending : Bool
  pending_pieces : Int
  orders_present : Bool
deriving DecidableEq

/-- Modelled from the spec: ETS.fetch_product is not shown in the article;
the spec states that a lookup for a product with no aggregate defaults all
derived fields to false and zero rather than failing. -/
def fetch_product (table : String → Option ProductAgg) (k : String) :
    Bool × Int × Bool :=
  match table k with
  | some agg => (agg.pending, agg.pending_pieces, agg.orders_present)
  | none => (false, 0, false)

/-- Merged entity produced by Product.transform, the map written by
Repo.insert_all before timestamps are added. -/
structure ProductRecord where
  external_id : String
  product_number : String
  description : String
  price : Rat
  commodity : String
  pending_orders_present : Bool
  orders_present : Bool
  pending_pieces : Int
deriving DecidableEq

/-- Product.transform: merge one products.csv row with the precomputed
orders data, looking the product number up in the ETS table. The decimal
column is abstracted by the given parse function. -/
def transform (parseDecimal : String → Rat) (row : ProductCsvRow)
    (table : String → Option ProductAgg) : ProductRecord :=
  let f := fetch_product table row.product_number
  { external_id := row.product_number
    product_number := row.product_number
    description := row.short_desc
    price := parseDecimal row.price
    commodity := row.commodity
    pending_orders_present := f.1
    orders_present := f.2.2
    pending_pieces := f.2.1 }

/-- Row of the products table in the store: a merged entity plus the two
timestamp columns written by add_timestamps. -/
structure StoredProduct extends ProductRecord where
  inserted_at : Nat
  updated_at : Nat
deriving DecidableEq

/-- EctoImporter.add_timestamps: stamp every item of a batch with the
current wall-clock time, passed here as an explicit parameter. -/
def add_timestamps (now : Nat) (items : List ProductRecord) :
    List StoredProduct :=
  items.map (fun item => ⟨item, now, now⟩)

/-- Insert-or-replace of one row into a list of rows keyed by the given id
projection: replace every row sharing the id of the new row, append the
new row otherwise. -/
def upsertBy {σ : Type} (ext : σ → String) (store : List σ) (r : σ) : List σ :=
  if store.any (fun s => ext s == ext r) then
    store.map (fun s => if ext s = ext r then r else s)
  else
    store ++ [r]

/-- Insert-or-replace of one stamped row into the store, keyed by
external_id with replace-all-fields semantics, as performed per row by
Repo.insert_all with on_conflict replace_all. -/
def upsert_row : List StoredProduct → StoredProduct → List StoredProduct :=
  upsertBy (fun s => s.external_id)

/-- Business-fields view of the insert-or-replace write, used to compare the
store states of two runs with the timestamp columns dropped. -/
def upsert_fields : List ProductRecord → ProductRecord → List ProductRecord :=
  upsertBy (fun p => p.external_id)

/-- EctoImporter.upsert applied to one batch: add timestamps, then write
every item with insert-or-replace semantics. -/
def upsert (store : List StoredProduct) (items : List ProductRecord)
    (now : Nat) : List StoredProduct :=
  (add_timestamps now items).foldl upsert_row store

/-- Business fields of the store, with the timestamp columns dropped. -/
def strip (store : List StoredProduct) : List ProductRecord :=
  store.map (fun s => s.toProductRecord)

/-- External ids of the rows of the store, in store order. -/
def store_ids (store : List StoredProduct) : List String :=
  store.map (fun s => s.external_id)

/-- Enum.chunk_every: split a list into consecutive chunks of n elements,
the last chunk possibly shorter. -/
def chunk_every {α : Type} : Nat → List α → List (List α)
  | _, [] => []
  | 0, l => [l]
  | n + 1, x :: xs => ((x :: xs).take (n + 1)) :: chunk_every (n + 1) (xs.drop n)
termination_by _ l => l.length
decreasing_by simp [List.length_drop]; omega

/-- Ids scheduled for deletion by EctoImporter.delete: the MapSet
difference of the persisted ids and the imported ids, listed in term
order. -/
def ids_to_delete (existing imported : Finset String) : List String :=
  (existing \ imported).sort (· ≤ ·)

/-- Delete chunks issued by EctoImporter.delete: the orphaned ids in
chunks of 1000. -/
def delete_chunks (existing imported : Finset String) : List (List String) :=
  chunk_every 1000 (ids_to_delete existing imported)

/-- Set of ids deleted by EctoImporter.delete when every chunk delete
succeeds. -/
def deleted_ids (existing imported : Finset String) : Finset String :=
  (delete_chunks existing imported).flatten.toFinset

/-- Execution of the chunked deletes of EctoImporter.delete against a store
of ids, with Repo.delete_all failures modelled by a predicate on chunks.
Each Repo.delete_all call is transactional on its own, and an exception
raised by one call propagates through Enum.map: chunks before the failing
one stay deleted, the failing chunk and every later chunk are not
deleted, and the flag records whether a failure was raised. -/
def run_deletes (fails : List String → Bool) (store : Finset String) :
    List (List String) → Finset String × Bool
  | [] => (store, false)
  | c :: rest =>
    if fails c then (store, true)
    else run_deletes fails (store \ c.toFinset) rest

/-
Helper lemmas about the order reduce stage.
-/

theorem orderStep_apply (t : String → Option OrderAgg) (r : POrder) (k : String) :
    orderStep t r k =
      if k = r.order_number then
        some { product_number := r.product_number
               ordered_pieces := r.ordered_pieces
               shipped_pieces := (fetch_order t r.order_number).1 + r.shipped_pieces
               pending := (fetch_order t r.order_number).2 || r.pending }
      else t k := by
  simp [orderStep, insert_order]

theorem reduceFlow_key (l : List POrder) (k : String) :
    reduceFlow l k =
      if h : l.filter (fun p => p.order_number == k) = [] then none
      else
        some { product_number :=
                 ((l.filter (fun p => p.order_number == k)).getLast h).product_number
               ordered_pieces :=
                 ((l.filter (fun p => p.order_number == k)).getLast h).ordered_pieces
               shipped_pieces :=
                 ((l.filter (fun p => p.order_number == k)).map
                   (fun p => p.shipped_pieces)).sum
               pending :=
                 (l.filter (fun p => p.order_number == k)).any
                   (fun p => p.pending) } := by
  induction l using List.reverseRecOn with
  | nil => simp [reduceFlow]
  | append_singleton l r ih =>
    have hstep : reduceFlow (l ++ [r]) k = orderStep (reduceFlow l) r k := by
      simp [reduceFlow, List.foldl_append]
    rw [hstep, orderStep_apply]
    by_cases hk : r.order_number = k
    · subst hk
      have hfil : (l ++ [r]).filter (fun p => p.order_number == r.order_number)
          = l.filter (fun p => p.order_number == r.order_number) ++ [r] := by
        simp [List.filter_append]
      by_cases hl : l.filter (fun p => p.order_number == r.order_number) = []
      · have hnone : reduceFlow l r.order_number = none := by
          rw [ih]
          simp [hl]
        rw [hfil, hl]
        simp [fetch_order, hnone]
      · have hsome := ih
        rw [dif_neg hl] at hsome
        rw [hfil]
        have hne : l.filter (fun p => p.order_number == r.order_number) ++ [r] ≠ [] := by
          simp
        rw [if_pos rfl, dif_neg hne]
        have hlast : (l.filter (fun p => p.order_number == r.order_number) ++ [r]).getLast hne = r :=
          List.getLast_append _
        rw [hlast]
        simp [fetch_order, hsome, List.sum_append, List.any_append]
    · have hfil : (l ++ [r]).filter (fun p => p.order_number == k)
          = l.filter (fun p => p.order_number == k) := by
        have : (r.order_number == k) = false := by
          simp [hk]
        simp [List.filter_append, this]
      rw [if_neg (fun h => hk h.symm), hfil, ih]

theorem reduceFlow_none_iff (l : List POrder) (k : String) :
    reduceFlow l k = none ↔ l.filter (fun p => p.order_number == k) = [] := by
  rw [reduceFlow_key]
  by_cases h : l.filter (fun p => p.order_number == k) = [] <;> simp [h]

theorem importOrders_key (rows : List OrderRow) (k : String) :
    importOrders rows k =
      if h : keyRows rows k = [] then none
      else
        some { product_number := ((keyRows rows k).getLast h).product_number
               ordered_pieces := ((keyRows rows k).getLast h).ordered_pieces
               shipped_pieces := shippedSum rows k
               pending := (keyRows rows k).any (fun p => p.pending) } := by
  simp only [importOrders, keyRows, shippedSum]
  exact reduceFlow_key _ k

theorem mem_keyRows_iff (rows : List OrderRow) (k : String) (p : POrder) :
    p ∈ keyRows rows k ↔
      ∃ r ∈ rows, valid r = true ∧ r.order_number = k ∧ p = project r := by
  simp only [keyRows, List.mem_filter, List.mem_map, beq_iff_eq]
  constructor
  · rintro ⟨⟨r, ⟨hr, hv⟩, rfl⟩, hkey⟩
    exact ⟨r, hr, hv, by simpa [project] using hkey, rfl⟩
  · rintro ⟨r, hr, hv, hkey, rfl⟩
    exact ⟨⟨r, ⟨hr, hv⟩, rfl⟩, by simpa [project] using hkey⟩

/-- C3: for every grouping key, the finalized pending quantity equals the
ordered quantity of the key (uniform over its non-ignored rows) minus the
sum of the shipped quantities over all non-ignored rows for that key,
whenever that difference is nonnegative. -/
theorem pending_quantity_formula (rows : List OrderRow) (k : String) (q : Int)
    (agg : OrderAgg)
    (hagg : importOrders rows k = some agg)
    (huni : ∀ r ∈ rows, valid r = true → r.order_number = k → r.ordered_pieces = q)
    (hle : shippedSum rows k ≤ q) :
    pending_quantity agg = q - shippedSum rows k := by
  rw [importOrders_key] at hagg
  by_cases h : keyRows rows k = []
  · rw [dif_pos h] at hagg
    exact absurd hagg (by simp)
  · rw [dif_neg h] at hagg
    obtain rfl := (Option.some.inj hagg).symm
    have hmem : (keyRows rows k).getLast h ∈ keyRows rows k := List.getLast_mem h
    obtain ⟨r, hr, hv, hkey, hp⟩ := (mem_keyRows_iff rows k _).mp hmem
    have hord : ((keyRows rows k).getLast h).ordered_pieces = q := by
      rw [hp]
      simpa [project] using (huni r hr hv hkey)
    simp only [pending_quantity, hord]
    exact max_eq_left (by omega)

/-- C3 witness: the literal order-2 scenario, two non-ignored rows with
shipped quantities 1200 and 2000 and ordered quantity 4000 aggregate to a
pending order with pending quantity 800. -/
theorem pending_quantity_formula_witness :
    importOrders
        [⟨"order-2", "Open", "HE3443", 4000, 1200, "12"⟩,
         ⟨"order-2", "Open", "HE3443", 4000, 2000, ""⟩] "order-2"
      = some ⟨"HE3443", 4000, 3200, true⟩ ∧
    (∀ r ∈ [(⟨"order-2", "Open", "HE3443", 4000, 1200, "12"⟩ : OrderRow),
            ⟨"order-2", "Open", "HE3443", 4000, 2000, ""⟩],
       valid r = true → r.order_number = "order-2" → r.ordered_pieces = 4000) ∧
    shippedSum
        [⟨"order-2", "Open", "HE3443", 4000, 1200, "12"⟩,
         ⟨"order-2", "Open", "HE3443", 4000, 2000, ""⟩] "order-2" ≤ 4000 ∧
    pending_quantity (⟨"HE3443", 4000, 3200, true⟩ : OrderAgg)
      = 4000 - shippedSum
          [⟨"order-2", "Open", "HE3443", 4000, 1200, "12"⟩,
           ⟨"order-2", "Open", "HE3443", 4000, 2000, ""⟩] "order-2" ∧
    (⟨"HE3443", 4000, 3200, true⟩ : OrderAgg).pending = true :=
  ⟨by decide, by decide, by decide,
   pending_quantity_formula _ _ _ _ (by decide) (by decide) (by decide),
   by decide⟩

/-- C4 counterexample: the key-wide reading of the pending rule is false for
the code. A key with one Open row without a bill of lading and one Open
row with a bill of lading aggregates to pending although a record of the
key carries a completion marker. -/
theorem pending_flag_keywide_marker_rule_false :
    ¬ (∀ (rows : List OrderRow) (k : String) (agg : OrderAgg),
        importOrders rows k = some agg →
        (agg.pending = true ↔
          (∃ r ∈ rows, valid r = true ∧ r.order_number = k ∧
             r.line_status = "Open") ∧
          (∀ r ∈ rows, r.order_number = k → r.bill_of_lading = ""))) := by
  intro hclaim
  have h := hclaim
    [⟨"k", "Open", "P", 4, 1, ""⟩, ⟨"k", "Open", "P", 4, 2, "7"⟩] "k"
    ⟨"P", 4, 3, true⟩ (by decide)
  have h2 := (h.mp rfl).2 ⟨"k", "Open", "P", 4, 2, "7"⟩ (by decide)
  exact absurd (h2 rfl) (by decide)

/-- C4 (amended): for every grouping key, the finalized pending flag is true
iff some non-ignored record for that key has the pending status Open and
that same record lacks a completion marker. -/
theorem pending_flag_rowwise_rule (rows : List OrderRow) (k : String)
    (agg : OrderAgg) (hagg : importOrders rows k = some agg) :
    (agg.pending = true ↔
      ∃ r ∈ rows, valid r = true ∧ r.order_number = k ∧
        r.line_status = "Open" ∧ r.bill_of_lading = "") := by
  rw [importOrders_key] at hagg
  by_cases h : keyRows rows k = []
  · rw [dif_pos h] at hagg
    exact absurd hagg (by simp)
  · rw [dif_neg h] at hagg
    obtain rfl := (Option.some.inj hagg).symm
    show (keyRows rows k).any (fun p => p.pending) = true ↔ _
    rw [List.any_eq_true]
    constructor
    · rintro ⟨p, hp, hpp⟩
      obtain ⟨r, hr, hv, hkey, rfl⟩ := (mem_keyRows_iff rows k p).mp hp
      have hrp : r.line_status = "Open" ∧ r.bill_of_lading = "" := by
        simpa [project, pending] using hpp
      exact ⟨r, hr, hv, hkey, hrp.1, hrp.2⟩
    · rintro ⟨r, hr, hv, hkey, hopen, hbill⟩
      refine ⟨project r, (mem_keyRows_iff rows k _).mpr ⟨r, hr, hv, hkey, rfl⟩, ?_⟩
      simp [project, pending, hopen, hbill]

/-- C4 witness: for the order-2 rows the aggregate is pending and indeed an
Open row without a bill of lading occurs for the key. -/
theorem pending_flag_rowwise_rule_witness :
    importOrders
        [⟨"order-2", "Closed", "HE3443", 4000, 1200, "12"⟩,
         ⟨"order-2", "Open", "HE3443", 4000, 2000, ""⟩] "order-2"
      = some ⟨"HE3443", 4000, 3200, true⟩ ∧
    ((⟨"HE3443", 4000, 3200, true⟩ : OrderAgg).pending = true ↔
      ∃ r ∈ [(⟨"order-2", "Closed", "HE3443", 4000, 1200, "12"⟩ : OrderRow),
             ⟨"order-2", "Open", "HE3443", 4000, 2000, ""⟩],
        valid r = true ∧ r.order_number = "order-2" ∧
          r.line_status = "Open" ∧ r.bill_of_lading = "") :=
  ⟨by decide, pending_flag_rowwise_rule _ _ _ (by decide)⟩

/-- C5: a row whose status is terminal (Closed) and which lacks a completion
marker is filtered out before aggregation: inserting such a row anywhere
in the input leaves the whole per-order aggregate table unchanged. -/
theorem ignored_row_contributes_nothing (xs ys : List OrderRow) (r : OrderRow)
    (hstatus : r.line_status = "Closed") (hbill : r.bill_of_lading = "") :
    importOrders (xs ++ r :: ys) = importOrders (xs ++ ys) := by
  have hv : valid r = false := by simp [valid, hstatus, hbill]
  have hfil : (xs ++ r :: ys).filter valid = (xs ++ ys).filter valid := by
    simp [List.filter_append, List.filter_cons, hv]
  simp [importOrders, hfil]

/-- C5 witness: the order-1 row (Closed, no bill of lading) contributes
nothing next to the order-0 row. -/
theorem ignored_row_contributes_nothing_witness :
    (⟨"order-1", "Closed", "HE3443", 1, 0, ""⟩ : OrderRow).line_status = "Closed" ∧
    (⟨"order-1", "Closed", "HE3443", 1, 0, ""⟩ : OrderRow).bill_of_lading = "" ∧
    importOrders
        [⟨"order-0", "Closed", "HE3443", 1234, 1234, "bill-number"⟩,
         ⟨"order-1", "Closed", "HE3443", 1, 0, ""⟩]
      = importOrders [⟨"order-0", "Closed", "HE3443", 1234, 1234, "bill-number"⟩] :=
  ⟨rfl, rfl,
   ignored_row_contributes_nothing
     [⟨"order-0", "Closed", "HE3443", 1234, 1234, "bill-number"⟩] []
     ⟨"order-1", "Closed", "HE3443", 1, 0, ""⟩ rfl rfl⟩

/-- C6: partition routing is deterministic in the grouping key: records with
equal keys get equal worker indices, and no key owns an aggregate in two
distinct worker tables. -/
theorem partition_routing_deterministic :
    (∀ (hash : String → Nat) (w : Nat) (p q : POrder),
        p.order_number = q.order_number →
        route hash w p.order_number = route hash w q.order_number) ∧
    (∀ (hash : String → Nat) (w : Nat) (rows : List OrderRow) (k : String)
        (i j : Nat),
        worker_table hash w rows i k ≠ none →
        worker_table hash w rows j k ≠ none → i = j) := by
  constructor
  · intro hash w p q hpq
    rw [hpq]
  · intro hash w rows k i j hi hj
    have key : ∀ m : Nat, worker_table hash w rows m k ≠ none →
        route hash w k = m := by
      intro m hm
      simp only [worker_table] at hm
      have hfil : (worker_rows hash w rows m).filter
          (fun p => p.order_number == k) ≠ [] := by
        intro hc
        exact hm ((reduceFlow_none_iff _ _).mpr hc)
      obtain ⟨p, hp⟩ := List.exists_mem_of_ne_nil _ hfil
      have hpk : p.order_number = k := by
        simpa using (List.mem_filter.mp hp).2
      have hpw := (List.mem_filter.mp (List.mem_filter.mp hp).1).2
      have : route hash w p.order_number = m := by
        simpa using hpw
      rw [← hpk]
      exact this
    rw [← key i hi, key j hj]

/-- C6 witness: with a concrete hash and two workers, a key owns an
aggregate only in its own worker table. -/
theorem partition_routing_deterministic_witness :
    worker_table String.length 2 [⟨"k", "Open", "P", 4, 1, ""⟩] 1 "k" ≠ none ∧
    ((1 : Nat) = 1) ∧
    route String.length 2 "k" = route String.length 2 "k" :=
  ⟨by decide,
   partition_routing_deterministic.2 String.length 2
     [⟨"k", "Open", "P", 4, 1, ""⟩] "k" 1 1 (by decide) (by decide),
   partition_routing_deterministic.1 String.length 2
     ⟨"k", "P", 4, 1, true⟩ ⟨"k", "P", 4, 2, false⟩ rfl⟩

/-- C7: folding any permutation of the rows into the reduce stage yields the
same aggregate entry for a key whose non-ignored rows agree on the product
number and the ordered quantity, so that the recency tie-break on those
two fields cannot apply. -/
theorem merge_order_insensitive (rows rows' : List OrderRow) (k p₀ : String)
    (q₀ : Int) (hperm : rows.Perm rows')
    (huni : ∀ r ∈ rows, valid r = true → r.order_number = k →
      r.product_number = p₀ ∧ r.ordered_pieces = q₀) :
    importOrders rows k = importOrders rows' k := by
  have hkperm : (keyRows rows k).Perm (keyRows rows' k) :=
    ((hperm.filter valid).map project).filter _
  have huni' : ∀ r ∈ rows', valid r = true → r.order_number = k →
      r.product_number = p₀ ∧ r.ordered_pieces = q₀ := by
    intro r hr
    exact huni r (hperm.mem_iff.mpr hr)
  rw [importOrders_key, importOrders_key]
  by_cases h : keyRows rows k = []
  · have h' : keyRows rows' k = [] := (h ▸ hkperm).symm.eq_nil
    rw [dif_pos h, dif_pos h']
  · have h' : keyRows rows' k ≠ [] := by
      intro hc
      exact h (hc ▸ hkperm).eq_nil
    rw [dif_neg h, dif_neg h']
    have hlast := List.getLast_mem h
    have hlast' := List.getLast_mem h'
    obtain ⟨r, hr, hv, hkey, hp⟩ := (mem_keyRows_iff rows k _).mp hlast
    obtain ⟨r', hr', hv', hkey', hp'⟩ := (mem_keyRows_iff rows' k _).mp hlast'
    have hru := huni r hr hv hkey
    have hru' := huni' r' hr' hv' hkey'
    simp only [Option.some.injEq, OrderAgg.mk.injEq]
    refine ⟨?_, ?_, ?_, ?_⟩
    · rw [hp, hp']
      simp [project, hru.1, hru'.1]
    · rw [hp, hp']
      simp [project, hru.2, hru'.2]
    · exact (hkperm.map (fun p => p.shipped_pieces)).sum_eq
    · rw [Bool.eq_iff_iff, List.any_eq_true, List.any_eq_true]
      constructor
      · rintro ⟨p, hp, hpp⟩
        exact ⟨p, hkperm.mem_iff.mp hp, hpp⟩
      · rintro ⟨p, hp, hpp⟩
        exact ⟨p, hkperm.mem_iff.mpr hp, hpp⟩

/-- C7 witness: the two order-2 rows folded in either order give the same
aggregate entry. -/
theorem merge_order_insensitive_witness :
    ([(⟨"order-2", "Closed", "HE3443", 4000, 1200, "12"⟩ : OrderRow),
      ⟨"order-2", "Open", "HE3443", 4000, 2000, ""⟩].Perm
     [⟨"order-2", "Open", "HE3443", 4000, 2000, ""⟩,
      ⟨"order-2", "Closed", "HE3443", 4000, 1200, "12"⟩]) ∧
    importOrders
        [⟨"order-2", "Closed", "HE3443", 4000, 1200, "12"⟩,
         ⟨"order-2", "Open", "HE3443", 4000, 2000, ""⟩] "order-2"
      = importOrders
          [⟨"order-2", "Open", "HE3443", 4000, 2000, ""⟩,
           ⟨"order-2", "Closed", "HE3443", 4000, 1200, "12"⟩] "order-2" :=
  ⟨List.Perm.swap _ _ _,
   merge_order_insensitive _ _ "order-2" "HE3443" 4000
     (List.Perm.swap _ _ _) (by decide)⟩

/-
Helper lemmas about the insert-or-replace write.
-/

theorem mem_upsertBy {σ : Type} {ext : σ → String} {store : List σ} {r x : σ}
    (hx : x ∈ upsertBy ext store r) : x = r ∨ x ∈ store := by
  unfold upsertBy at hx
  by_cases h : store.any (fun s => ext s == ext r)
  · rw [if_pos h] at hx
    obtain ⟨y, hy, hxy⟩ := List.mem_map.mp hx
    by_cases hid : ext y = ext r
    · left
      rw [← hxy, if_pos hid]
    · right
      rw [← hxy, if_neg hid]
      exact hy
  · rw [if_neg h] at hx
    rcases List.mem_append.mp hx with h1 | h2
    · right
      exact h1
    · left
      simpa using h2

theorem upsertBy_mem_of_ne {σ : Type} {ext : σ → String} {store : List σ}
    {r x : σ} (hx : x ∈ upsertBy ext store r) (hne : ext x ≠ ext r) :
    x ∈ store := by
  rcases mem_upsertBy hx with rfl | h
  · exact absurd rfl hne
  · exact h

theorem upsertBy_eq_of_id {σ : Type} {ext : σ → String} {store : List σ}
    {r x : σ} (hx : x ∈ upsertBy ext store r) (hid : ext x = ext r) :
    x = r := by
  unfold upsertBy at hx
  by_cases h : store.any (fun s => ext s == ext r)
  · rw [if_pos h] at hx
    obtain ⟨y, hy, hxy⟩ := List.mem_map.mp hx
    by_cases hyid : ext y = ext r
    · rw [← hxy, if_pos hyid]
    · rw [← hxy, if_neg hyid] at hid
      exact absurd hid hyid
  · rw [if_neg h] at hx
    rcases List.mem_append.mp hx with h1 | h2
    · exact absurd (List.any_eq_true.mpr ⟨x, h1, by simp [hid]⟩) h
    · simpa using h2

theorem any_ids_iff {σ : Type} (ext : σ → String) (store : List σ) (k : String) :
    (store.any fun s => ext s == k) = true ↔ k ∈ store.map ext := by
  rw [List.any_eq_true]
  constructor
  · rintro ⟨s, hs, hsk⟩
    exact List.mem_map.mpr ⟨s, hs, by simpa using hsk⟩
  · intro h
    obtain ⟨s, hs, hsk⟩ := List.mem_map.mp h
    exact ⟨s, hs, by simp [hsk]⟩

theorem ids_mem_upsertBy {σ : Type} (ext : σ → String) (store : List σ) (r : σ) :
    ext r ∈ (upsertBy ext store r).map ext := by
  unfold upsertBy
  by_cases h : store.any (fun s => ext s == ext r)
  · rw [if_pos h]
    obtain ⟨y, hy, hyid⟩ := List.any_eq_true.mp h
    rw [List.map_map]
    apply List.mem_map.mpr
    refine ⟨y, hy, ?_⟩
    have : ext y = ext r := by simpa using hyid
    simp [Function.comp, this]
  · rw [if_neg h]
    simp

theorem ids_mono_upsertBy {σ : Type} {ext : σ → String} {store : List σ}
    {k : String} (r : σ) (hk : k ∈ store.map ext) :
    k ∈ (upsertBy ext store r).map ext := by
  unfold upsertBy
  by_cases h : store.any (fun s => ext s == ext r)
  · rw [if_pos h, List.map_map]
    obtain ⟨y, hy, hyk⟩ := List.mem_map.mp hk
    apply List.mem_map.mpr
    refine ⟨y, hy, ?_⟩
    show ext (if ext y = ext r then r else y) = k
    by_cases hid : ext y = ext r
    · rw [if_pos hid, ← hid]
      exact hyk
    · rw [if_neg hid]
      exact hyk
  · rw [if_neg h]
    simp [hk]

theorem ids_foldl_mono {σ : Type} {ext : σ → String} (l : List σ)
    {store : List σ} {k : String} (hk : k ∈ store.map ext) :
    k ∈ (List.foldl (upsertBy ext) store l).map ext := by
  induction l generalizing store with
  | nil => exact hk
  | cons a l ih => exact ih (ids_mono_upsertBy a hk)

theorem foldl_upsertBy_mem_of_not_mem {σ : Type} {ext : σ → String}
    {l : List σ} {store : List σ} {x : σ} {k : String}
    (hkl : k ∉ l.map ext) (hx : x ∈ List.foldl (upsertBy ext) store l)
    (hxk : ext x = k) : x ∈ store := by
  induction l generalizing store with
  | nil => exact hx
  | cons a l ih =>
    rw [List.map_cons] at hkl
    have hka : k ≠ ext a := fun hc => hkl (hc ▸ List.mem_cons_self _ _)
    have hx' := ih (fun hc => hkl (List.mem_cons_of_mem _ hc)) hx
    exact upsertBy_mem_of_ne hx' (by rw [hxk]; exact hka)

theorem foldl_upsertBy_batch_row {σ : Type} {ext : σ → String} {l : List σ}
    {store : List σ} {x r : σ} (hnd : (l.map ext).Nodup) (hr : r ∈ l)
    (hx : x ∈ List.foldl (upsertBy ext) store l) (hid : ext x = ext r) :
    x = r := by
  induction l generalizing store with
  | nil => cases hr
  | cons a l ih =>
    rw [List.map_cons, List.nodup_cons] at hnd
    rcases List.mem_cons.mp hr with rfl | hr
    · have hx' := foldl_upsertBy_mem_of_not_mem hnd.1 hx hid
      exact upsertBy_eq_of_id hx' hid
    · exact ih hnd.2 hr hx

theorem foldl_upsertBy_mem_batch {σ : Type} {ext : σ → String} {l : List σ}
    {store : List σ} {x : σ} (hx : x ∈ List.foldl (upsertBy ext) store l)
    (hid : ext x ∈ l.map ext) : x ∈ l := by
  induction l generalizing store with
  | nil => simp at hid
  | cons a l ih =>
    by_cases hml : ext x ∈ l.map ext
    · exact List.mem_cons_of_mem _ (ih hx hml)
    · have hxa : ext x = ext a := by
        rcases List.mem_cons.mp hid with h1 | h2
        · exact h1
        · exact absurd h2 hml
      have hx' := foldl_upsertBy_mem_of_not_mem hml hx rfl
      rw [upsertBy_eq_of_id hx' hxa]
      exact List.mem_cons_self a l

theorem upsertBy_self {σ : Type} {ext : σ → String} {store : List σ} {r : σ}
    (hmem : ext r ∈ store.map ext)
    (hall : ∀ x ∈ store, ext x = ext r → x = r) :
    upsertBy ext store r = store := by
  unfold upsertBy
  rw [if_pos ((any_ids_iff ext store (ext r)).mpr hmem)]
  have hcong : ∀ x ∈ store, (if ext x = ext r then r else x) = id x := by
    intro x hx
    by_cases hid : ext x = ext r
    · rw [if_pos hid]
      exact (hall x hx hid).symm
    · rw [if_neg hid]
      rfl
  rw [List.map_congr_left hcong, List.map_id]

theorem foldl_upsertBy_idem {σ : Type} {ext : σ → String} {l : List σ}
    (hnd : (l.map ext).Nodup) (store : List σ) :
    List.foldl (upsertBy ext) (List.foldl (upsertBy ext) store l) l
      = List.foldl (upsertBy ext) store l := by
  induction l generalizing store with
  | nil => rfl
  | cons a l ih =>
    have hnd' := hnd
    rw [List.map_cons, List.nodup_cons] at hnd'
    simp only [List.foldl_cons]
    have hmem : ext a ∈ (List.foldl (upsertBy ext) (upsertBy ext store a) l).map ext :=
      ids_foldl_mono l (ids_mem_upsertBy ext store a)
    have hall : ∀ x ∈ List.foldl (upsertBy ext) (upsertBy ext store a) l,
        ext x = ext a → x = a := by
      intro x hx hid
      exact foldl_upsertBy_batch_row (l := a :: l) hnd (List.mem_cons_self a l) hx hid
    rw [upsertBy_self hmem hall]
    exact ih hnd'.2 (upsertBy ext store a)

theorem ids_nodup_upsertBy {σ : Type} {ext : σ → String} {store : List σ}
    (r : σ) (h : (store.map ext).Nodup) :
    ((upsertBy ext store r).map ext).Nodup := by
  unfold upsertBy
  by_cases hc : store.any (fun s => ext s == ext r)
  · rw [if_pos hc, List.map_map]
    have hsame : store.map (ext ∘ fun s => if ext s = ext r then r else s)
        = store.map ext := by
      apply List.map_congr_left
      intro x hx
      by_cases hid : ext x = ext r
      · simp [Function.comp, hid]
      · simp [Function.comp, hid]
    rw [hsame]
    exact h
  · rw [if_neg hc, List.map_append, List.nodup_append]
    refine ⟨h, by simp, ?_⟩
    intro y hy
    simp only [List.map_cons, List.map_nil, List.mem_cons, List.not_mem_nil,
      or_false]
    intro hyr
    exact absurd ((any_ids_iff ext store (ext r)).mpr (hyr ▸ hy)) hc

theorem ids_nodup_foldl {σ : Type} {ext : σ → String} (l : List σ)
    {store : List σ} (h : (store.map ext).Nodup) :
    ((List.foldl (upsertBy ext) store l).map ext).Nodup := by
  induction l generalizing store with
  | nil => exact h
  | cons a l ih => exact ih (ids_nodup_upsertBy a h)

theorem map_upsertBy {σ τ : Type} (extS : σ → String) (extT : τ → String)
    (f : σ → τ) (hf : ∀ x, extT (f x) = extS x) (store : List σ) (r : σ) :
    (upsertBy extS store r).map f = upsertBy extT (store.map f) (f r) := by
  unfold upsertBy
  have hany : (store.any fun s => extS s == extS r)
      = ((store.map f).any fun t => extT t == extT (f r)) := by
    rw [Bool.eq_iff_iff, List.any_eq_true, List.any_eq_true]
    constructor
    · rintro ⟨s, hs, hsk⟩
      exact ⟨f s, List.mem_map_of_mem f hs, by simpa [hf] using hsk⟩
    · rintro ⟨t, ht, htk⟩
      obtain ⟨s, hs, rfl⟩ := List.mem_map.mp ht
      exact ⟨s, hs, by simpa [hf] using htk⟩
  by_cases hc : (store.any fun s => extS s == extS r) = true
  · rw [if_pos hc, if_pos (hany ▸ hc), List.map_map, List.map_map]
    apply List.map_congr_left
    intro s hs
    by_cases hid : extS s = extS r
    · simp [Function.comp, hid, hf]
    · simp [Function.comp, hid, hf]
  · rw [if_neg hc, if_neg (fun hcc => hc (hany ▸ hcc))]
    simp

theorem strip_upsert (s : List StoredProduct) (b : List ProductRecord)
    (t : Nat) :
    strip (upsert s b t) = List.foldl upsert_fields (strip s) b := by
  unfold upsert add_timestamps strip upsert_row upsert_fields
  induction b generalizing s with
  | nil => rfl
  | cons i b ih =>
    simp only [List.map_cons, List.foldl_cons]
    rw [ih, map_upsertBy (fun s : StoredProduct => s.external_id)
      (fun p : ProductRecord => p.external_id)
      (fun s => s.toProductRecord) (fun _ => rfl)]

/-- C1 counterexample: re-running the identical one-item batch at a later
wall-clock time changes the store state, because replace-all overwrites
the timestamp columns with the new write time. -/
theorem upsert_twice_changes_timestamps :
    upsert (upsert [] [⟨"p1", "p1", "d", 0, "c", false, false, 0⟩] 0)
        [⟨"p1", "p1", "d", 0, "c", false, false, 0⟩] 1
      ≠ upsert [] [⟨"p1", "p1", "d", 0, "c", false, false, 0⟩] 0 := by
  decide

/-- C1 (amended): running the upsert sink twice with an identical batch of
pairwise distinct external ids yields a store that agrees with the single
run on every business field of every row and holds no duplicate rows for
any external id; only the inserted_at and updated_at columns move to the
later write time. -/
theorem upsert_idempotent_up_to_timestamps
    (s : List StoredProduct) (b : List ProductRecord) (t₁ t₂ : Nat)
    (hb : (b.map (fun i => i.external_id)).Nodup) :
    strip (upsert (upsert s b t₁) b t₂) = strip (upsert s b t₁) ∧
    ((store_ids s).Nodup →
      (store_ids (upsert (upsert s b t₁) b t₂)).Nodup) := by
  constructor
  · rw [strip_upsert, strip_upsert]
    exact foldl_upsertBy_idem hb (strip s)
  · intro hs
    have h1 : ((upsert s b t₁).map (fun r => r.external_id)).Nodup :=
      ids_nodup_foldl _ hs
    exact ids_nodup_foldl _ h1

/-- C1 witness: concrete instance of the amended idempotence statement. -/
theorem upsert_idempotent_up_to_timestamps_witness :
    (([(⟨"p1", "p1", "d", 0, "c", false, false, 0⟩ : ProductRecord)]).map
        (fun i => i.external_id)).Nodup ∧
    strip (upsert (upsert [] [⟨"p1", "p1", "d", 0, "c", false, false, 0⟩] 0)
        [⟨"p1", "p1", "d", 0, "c", false, false, 0⟩] 1)
      = strip (upsert [] [⟨"p1", "p1", "d", 0, "c", false, false, 0⟩] 0) :=
  ⟨by decide,
   (upsert_idempotent_up_to_timestamps [] _ 0 1 (by decide)).1⟩

/-- C10: every row written by the upsert sink carries the write time in both
timestamp columns, and re-upserting the same batch at a later time
overwrites both timestamp columns with the new write time even when the
business fields are unchanged. -/
theorem upsert_sets_timestamps_to_write_time :
    (∀ (s : List StoredProduct) (b : List ProductRecord) (t : Nat)
        (row : StoredProduct),
        row ∈ upsert s b t →
        row.external_id ∈ b.map (fun i => i.external_id) →
        row.inserted_at = t ∧ row.updated_at = t) ∧
    (∀ (s : List StoredProduct) (b : List ProductRecord) (t₁ t₂ : Nat)
        (row : StoredProduct),
        row ∈ upsert (upsert s b t₁) b t₂ →
        row.external_id ∈ b.map (fun i => i.external_id) →
        row.inserted_at = t₂ ∧ row.updated_at = t₂) := by
  have main : ∀ (s : List StoredProduct) (b : List ProductRecord) (t : Nat)
      (row : StoredProduct),
      row ∈ upsert s b t →
      row.external_id ∈ b.map (fun i => i.external_id) →
      row.inserted_at = t ∧ row.updated_at = t := by
    intro s b t row hrow hid
    have hrow' : row ∈ List.foldl
        (upsertBy (fun x : StoredProduct => x.external_id)) s
        (add_timestamps t b) := hrow
    have hid' : (fun x : StoredProduct => x.external_id) row ∈
        (add_timestamps t b).map (fun x : StoredProduct => x.external_id) := by
      unfold add_timestamps
      rw [List.map_map]
      exact hid
    have hmem := foldl_upsertBy_mem_batch hrow' hid'
    obtain ⟨i, hi, rfl⟩ := List.mem_map.mp hmem
    exact ⟨rfl, rfl⟩
  exact ⟨main, fun s b t₁ t₂ row h1 h2 => main (upsert s b t₁) b t₂ row h1 h2⟩

/-- C10 witness: concrete instance of the timestamp property. -/
theorem upsert_sets_timestamps_to_write_time_witness :
    ((⟨⟨"p1", "p1", "d", 0, "c", false, false, 0⟩, 5, 5⟩ : StoredProduct) ∈
      upsert [] [⟨"p1", "p1", "d", 0, "c", false, false, 0⟩] 5) ∧
    ("p1" ∈ [(⟨"p1", "p1", "d", 0, "c", false, false, 0⟩ : ProductRecord)].map
      (fun i => i.external_id)) ∧
    ((⟨⟨"p1", "p1", "d", 0, "c", false, false, 0⟩, 5, 5⟩ : StoredProduct).inserted_at = 5 ∧
     (⟨⟨"p1", "p1", "d", 0, "c", false, false, 0⟩, 5, 5⟩ : StoredProduct).updated_at = 5) :=
  ⟨by decide, by decide,
   upsert_sets_timestamps_to_write_time.1 []
     [⟨"p1", "p1", "d", 0, "c", false, false, 0⟩] 5
     ⟨⟨"p1", "p1", "d", 0, "c", false, false, 0⟩, 5, 5⟩ (by decide) (by decide)⟩

/-
Helper lemmas about the chunked reconciliation deletes.
-/

theorem chunk_every_flatten {α : Type} (n : Nat) (l : List α) :
    (chunk_every n l).flatten = l := by
  match n, l with
  | _, [] => simp [chunk_every]
  | 0, x :: xs => simp [chunk_every]
  | n + 1, x :: xs =>
    have ih := chunk_every_flatten (n + 1) (xs.drop n)
    rw [chunk_every]
    rw [List.flatten_cons, ih]
    have : List.drop n xs = List.drop (n + 1) (x :: xs) := rfl
    rw [this, List.take_append_drop]
termination_by l.length
decreasing_by simp [List.length_drop]; omega

theorem deleted_ids_eq (existing imported : Finset String) :
    deleted_ids existing imported = existing \ imported := by
  unfold deleted_ids delete_chunks
  rw [chunk_every_flatten]
  unfold ids_to_delete
  exact Finset.sort_toFinset _ _

/-- C2: reconciliation deletes exactly the persisted-minus-written set: the
deleted ids equal the set difference, deleted and written ids are
disjoint, and every persisted id is either written or deleted; in the
literal scenario where the store holds A, B, C before the run and the run
writes B, C, D, exactly A is deleted and B, C, D remain. -/
theorem reconciliation_deletes_exactly_orphans :
    (∀ existing imported : Finset String,
        deleted_ids existing imported = existing \ imported ∧
        deleted_ids existing imported ∩ imported = ∅ ∧
        existing ⊆ imported ∪ deleted_ids existing imported) ∧
    deleted_ids ({"A", "B", "C"} ∪ {"B", "C", "D"}) {"B", "C", "D"} = {"A"} ∧
    ({"A", "B", "C"} ∪ {"B", "C", "D"} : Finset String) \
        deleted_ids ({"A", "B", "C"} ∪ {"B", "C", "D"}) {"B", "C", "D"}
      = {"B", "C", "D"} := by
  refine ⟨fun e i => ⟨deleted_ids_eq e i, ?_, ?_⟩, ?_, ?_⟩
  · rw [deleted_ids_eq]
    ext x
    simp only [Finset.mem_inter, Finset.mem_sdiff, Finset.not_mem_empty,
      iff_false]
    tauto
  · rw [deleted_ids_eq]
    intro x hx
    simp only [Finset.mem_union, Finset.mem_sdiff]
    by_cases hxi : x ∈ i
    · exact Or.inl hxi
    · exact Or.inr ⟨hx, hxi⟩
  · rw [deleted_ids_eq]
    decide
  · rw [deleted_ids_eq]
    decide

/-- C9 counterexample: with chunks A, B, C of which the delete of chunk B
fails, the id of the later chunk C is still in the store afterwards even
though its delete would have succeeded: the differencer does not continue
with the remaining chunks. -/
theorem chunk_failure_aborts_remaining :
    run_deletes (fun c => c == ["B"]) {"A", "B", "C"} [["A"], ["B"], ["C"]]
      = ({"B", "C"}, true) ∧
    (fun c : List String => c == ["B"]) ["C"] = false ∧
    ("C" : String) ∈ ({"B", "C"} : Finset String) :=
  ⟨by decide, by decide, by decide⟩

/-- C9 (amended): a chunk delete failure does not undo previously deleted
chunks, which stay deleted, but the raised error ends the delete phase at
the failing chunk: that chunk and every later chunk are left untouched
and the failure surfaces as the result of the run. -/
theorem chunk_failure_keeps_prior_deletes (fails : List String → Bool)
    (store : Finset String) (pre : List (List String)) (c : List String)
    (post : List (List String))
    (hpre : ∀ d ∈ pre, fails d = false) (hc : fails c = true) :
    run_deletes fails store (pre ++ c :: post)
      = (store \ pre.flatten.toFinset, true) := by
  induction pre generalizing store with
  | nil => simp [run_deletes, hc]
  | cons d pre ih =>
    have hd : fails d = false := hpre d (List.mem_cons_self d pre)
    show run_deletes fails store (d :: (pre ++ c :: post)) = _
    rw [run_deletes, if_neg (by simp [hd])]
    rw [ih (store \ d.toFinset) (fun x hx => hpre x (List.mem_cons_of_mem d hx))]
    have hsd : (store \ d.toFinset) \ pre.flatten.toFinset
        = store \ ((d :: pre).flatten).toFinset := by
      rw [List.flatten_cons, List.toFinset_append]
      ext x
      simp only [Finset.mem_sdiff, Finset.mem_union]
      tauto
    rw [hsd]

/-- C9 witness: concrete instance of the amended chunk-failure statement. -/
theorem chunk_failure_keeps_prior_deletes_witness :
    (∀ d ∈ [["A"]], (fun c : List String => c == ["B"]) d = false) ∧
    (fun c : List String => c == ["B"]) ["B"] = true ∧
    run_deletes (fun c => c == ["B"]) {"A", "B", "C"}
        ([["A"]] ++ ["B"] :: [["C"]])
      = ({"A", "B", "C"} \ ([["A"]] : List (List String)).flatten.toFinset,
         true) :=
  ⟨by decide, by decide,
   chunk_failure_keeps_prior_deletes _ _ [["A"]] ["B"] [["C"]]
     (by decide) (by decide)⟩

/-- C8: when the join key of a primary-dataset row has no entry in the
aggregate store, the join stage still produces a merged entity and all
derived fields default to no data: no pending orders, zero pending
pieces, no orders present. -/
theorem join_defaults_on_missing_key (parseDecimal : String → Rat)
    (row : ProductCsvRow) (table : String → Option ProductAgg)
    (h : table row.product_number = none) :
    (transform parseDecimal row table).pending_orders_present = false ∧
    (transform parseDecimal row table).pending_pieces = 0 ∧
    (transform parseDecimal row table).orders_present = false := by
  simp [transform, fetch_product, h]

/-- C8 witness: a product row looked up in an empty aggregate store gets the
default derived fields. -/
theorem join_defaults_on_missing_key_witness :
    ((fun _ : String => (none : Option ProductAgg))
        (⟨"HE1", "1", "Coil", "desc"⟩ : ProductCsvRow).product_number = none) ∧
    ((transform (fun _ => 0) ⟨"HE1", "1", "Coil", "desc"⟩
        (fun _ => none)).pending_orders_present = false ∧
     (transform (fun _ => 0) ⟨"HE1", "1", "Coil", "desc"⟩
        (fun _ => none)).pending_pieces = 0 ∧
     (transform (fun _ => 0) ⟨"HE1", "1", "Coil", "desc"⟩
        (fun _ => none)).orders_present = false) :=
  ⟨rfl,
   join_defaults_on_missing_key (fun _ => 0) ⟨"HE1", "1", "Coil", "desc"⟩
     (fun _ => none) rfl⟩

end GenstageImporter
